import Mathlib

/-!
Shallow embedding of the Nuua compiler's code-generation stage
(`Compiler/src/compiler.cpp`, token alphabet from `Lexer/src/tokens.cpp`),
together with theorems checking the natural-language specification of the
emitter against this embedding.

Modelling conventions:
* C++ `std::vector` streams become Lean `List`s; `push_back` is append.
* The code stream mixes opcodes and constant-pool indices; it is modelled
  as a list of `Slot` (either an opcode tag or a pool index).
* Machine integers (`uint32_t` code lengths, `int64_t` offsets) are modelled
  as `Nat`/`Int`; every subtraction performed by the source is between a
  larger and a smaller code length of the same region, so no wrap occurs and
  the ideal arithmetic agrees with the machine arithmetic.
* `double` constants (list/dictionary sizes, `RULE_FLOAT` literals) are
  modelled as `Rat`; the compiler never computes with them, it only stores
  them, and the stored counts are small integers that `double` represents
  exactly.
* `exit(EXIT_FAILURE)` calls become an `Except.error`.
-/

namespace Nuua

/-- The VM opcode alphabet used by the emitter. -/
inductive OpCode where
  | OP_PUSH | OP_POP
  | OP_ADD | OP_SUB | OP_MUL | OP_DIV
  | OP_MINUS | OP_NOT
  | OP_EQ | OP_NEQ | OP_LT | OP_LTE | OP_HT | OP_HTE
  | OP_DECLARE | OP_STORE | OP_ONLY_STORE | OP_LOAD
  | OP_ACCESS | OP_STORE_ACCESS
  | OP_LIST | OP_DICTIONARY
  | OP_PRINT
  | OP_BRANCH_FALSE | OP_RJUMP
  | OP_CALL | OP_RETURN | OP_FUNCTION
  | OP_EXIT
  deriving DecidableEq, Repr

/-- The lexer's token alphabet (`Lexer/src/tokens.cpp`). -/
inductive TokenType where
  | TOKEN_NEW_LINE
  | TOKEN_LEFT_PAREN | TOKEN_RIGHT_PAREN
  | TOKEN_LEFT_BRACE | TOKEN_RIGHT_BRACE
  | TOKEN_COMMA | TOKEN_DOT
  | TOKEN_MINUS | TOKEN_PLUS | TOKEN_SLASH | TOKEN_STAR
  | TOKEN_RIGHT_ARROW | TOKEN_LEFT_ARROW
  | TOKEN_BANG | TOKEN_BANG_EQUAL
  | TOKEN_EQUAL | TOKEN_EQUAL_EQUAL
  | TOKEN_HIGHER | TOKEN_HIGHER_EQUAL
  | TOKEN_LOWER | TOKEN_LOWER_EQUAL
  | TOKEN_IDENTIFIER | TOKEN_STRING | TOKEN_INTEGER | TOKEN_FLOAT
  | TOKEN_OR | TOKEN_AND
  | TOKEN_CLASS | TOKEN_ELSE | TOKEN_TRUE | TOKEN_FALSE
  | TOKEN_WHILE | TOKEN_FOR | TOKEN_IF | TOKEN_NONE | TOKEN_SELF
  | TOKEN_EOF | TOKEN_PERCENT
  | TOKEN_LEFT_SQUARE | TOKEN_RIGHT_SQUARE
  | TOKEN_BIG_RIGHT_ARROW | TOKEN_COLON
  | TOKEN_RETURN | TOKEN_PRINT
  deriving DecidableEq, Repr

/-- An operator token as consumed by `Compiler::compile(Token, bool)`:
its type and its source line. -/
structure Token where
  type : TokenType
  line : Nat
  deriving DecidableEq, Repr

/-- The runtime `Value` tagged union, restricted to the shapes the compiler
actually stores in constant pools: int64, double, string, boolean,
none (the default-constructed `Value()`), and type descriptors. -/
inductive Value where
  | vint (i : Int)
  | vfloat (d : Rat)
  | vstring (s : String)
  | vbool (b : Bool)
  | vnone
  | vtype (t : String)
  deriving DecidableEq, Repr

/-- One slot of a region's code stream: either an opcode or a
constant-pool index (the two are intermixed positionally). -/
inductive Slot where
  | op (o : OpCode)
  | idx (i : Nat)
  deriving DecidableEq, Repr

/-- A memory region: code stream, constants pool, line-number stream. -/
structure Memory where
  code : List Slot := []
  constants : List Value := []
  lines : List Nat := []
  deriving DecidableEq, Repr

/-- The three-region program container. -/
structure Program where
  program : Memory := {}
  functions : Memory := {}
  classes : Memory := {}
  deriving DecidableEq, Repr

/-- The active-region selector. -/
inductive MemoryKind where
  | FUNCTIONS_MEMORY | CLASSES_MEMORY | PROGRAM_MEMORY
  deriving DecidableEq, Repr

/-- Compiler state: output program, active-region selector,
current source line. -/
structure CompilerS where
  program : Program := {}
  current_memory : MemoryKind := .PROGRAM_MEMORY
  current_line : Nat := 0
  deriving DecidableEq, Repr

/-- Fatal conditions (each an `exit(EXIT_FAILURE)` in the source). -/
inductive CompileErr where
  /-- Diagnostic "Invalid rule to compile. Found Statement or expression without
  propper format." — a bare `RULE_STATEMENT`/`RULE_EXPRESSION` node. -/
  | invalidRule (line : Nat)
  /-- Diagnostic "Invalid statemetn to compile." — unrecognized statement rule kind. -/
  | invalidStatement (line : Nat)
  /-- Diagnostic "Invalid expression to compile." — unrecognized expression rule kind. -/
  | invalidExpression (line : Nat)
  /-- Diagnostic "Unknown operation token in a binary instruction." -/
  | unknownToken (line : Nat)
  deriving DecidableEq, Repr

/-- Region addressed by a selector (`Compiler::get_current_memory`,
whose `default` arm is the `program` region). -/
def getMemOf (p : Program) : MemoryKind → Memory
  | .FUNCTIONS_MEMORY => p.functions
  | .CLASSES_MEMORY => p.classes
  | .PROGRAM_MEMORY => p.program

/-- Replace the region addressed by a selector. -/
def setMemOf (p : Program) : MemoryKind → Memory → Program
  | .FUNCTIONS_MEMORY, m => { p with functions := m }
  | .CLASSES_MEMORY, m => { p with classes := m }
  | .PROGRAM_MEMORY, m => { p with program := m }

/-- Source `Compiler::get_current_memory` (read side). -/
def get_current_memory (s : CompilerS) : Memory :=
  getMemOf s.program s.current_memory

/-- Write-back to the active region. -/
def set_current_memory (s : CompilerS) (m : Memory) : CompilerS :=
  { s with program := setMemOf s.program s.current_memory m }

/-- Source `Compiler::add_opcode`: append the opcode to the active region's code
stream and the current line to its lines stream. -/
def add_opcode (o : OpCode) (s : CompilerS) : CompilerS :=
  let m := get_current_memory s
  set_current_memory s
    { m with code := m.code ++ [Slot.op o], lines := m.lines ++ [s.current_line] }

/-- Source `Compiler::add_constant_only`: append the value to the active region's
constants pool, append the resulting pool index to the code stream (the
lines stream is NOT touched by this function in the source), and return the
pool index. -/
def add_constant_only (v : Value) (s : CompilerS) : CompilerS × Nat :=
  let m := get_current_memory s
  let constants := m.constants ++ [v]
  let index := constants.length - 1
  (set_current_memory s { m with constants := constants, code := m.code ++ [Slot.idx index] },
   index)

/-- Source `Compiler::add_constant`: `OP_PUSH` followed by the constant. -/
def add_constant (v : Value) (s : CompilerS) : CompilerS :=
  (add_constant_only v (add_opcode .OP_PUSH s)).1

/-- Source `Compiler::modify_constant`: overwrite the pool entry in place.
The source performs `constants[index] = value` with no bounds check of any
kind; an out-of-range index is an unchecked out-of-bounds vector write
(undefined behavior in C++), modelled by `List.set`, which changes nothing
when the index is out of range. -/
def modify_constant (index : Nat) (v : Value) (s : CompilerS) : CompilerS :=
  let m := get_current_memory s
  set_current_memory s { m with constants := m.constants.set index v }

/-- Source `Compiler::current_code_line`: length of the active region's code. -/
def current_code_line (s : CompilerS) : Nat :=
  (get_current_memory s).code.length

/-- A fresh compiler: empty regions, `program` selected. -/
def initCompiler : CompilerS := {}

/-! ## The AST consumed by the emitter

The parser's polymorphic nodes (base class with a rule tag plus downcasts)
become a closed mutual family.  The bare `RULE_STATEMENT`/`RULE_EXPRESSION`
placeholder rules are the two dedicated constructors below; every rule kind
outside the emitter's recognized set is represented by the catch-all
constructors `UnknownRule`/`UnknownExpr` (the `default` arms of the two
switches).  Statement and expression lists are their own mutual list types
so that all recursion stays structural. -/

mutual

inductive Stmt where
  | ExpressionRule (line : Nat)
  | StatementRule (line : Nat)
  | Print (line : Nat) (expression : Expr)
  | ExpressionStatement (line : Nat) (expression : Expr)
  | Declaration (line : Nat) (name : String) (type : String) (initializer : OptExpr)
  | Return (line : Nat) (value : Expr)
  | If (line : Nat) (condition : Expr) (thenBranch : StmtList) (elseBranch : StmtList)
  | While (line : Nat) (condition : Expr) (body : StmtList)
  | UnknownRule (line : Nat)

inductive StmtList where
  | nil
  | cons (head : Stmt) (tail : StmtList)

inductive OptExpr where
  | none
  | some (e : Expr)

inductive Expr where
  | Integer (line : Nat) (value : Int)
  | FloatLit (line : Nat) (value : Rat)
  | StringLit (line : Nat) (value : String)
  | Boolean (line : Nat) (value : Bool)
  | ListExpr (line : Nat) (value : ExprList)
  | Dictionary (line : Nat) (entries : DictList)
  | NoneExpr (line : Nat)
  | Group (line : Nat) (expression : Expr)
  | Unary (line : Nat) (op : Token) (right : Expr)
  | Binary (line : Nat) (left : Expr) (op : Token) (right : Expr)
  | Variable (line : Nat) (name : String)
  | Assign (line : Nat) (name : String) (value : Expr)
  | AssignAccess (line : Nat) (name : String) (value : Expr) (index : Expr)
  | Logical (line : Nat) (left : Expr) (op : Token) (right : Expr)
  | Function (line : Nat) (arguments : StmtList) (return_type : String) (body : StmtList)
  | Call (line : Nat) (callee : String) (arguments : ExprList)
  | Access (line : Nat) (name : String) (index : Expr)
  | UnknownExpr (line : Nat)

inductive ExprList where
  | nil
  | cons (head : Expr) (tail : ExprList)

/-- A dictionary's explicit key ordering (`key_order`), each key paired
with the value expression the `value` map holds for it. -/
inductive DictList where
  | nil
  | cons (key : String) (value : Expr) (tail : DictList)

end

/-- Number of elements of an `ExprList` (`list->value.size()`). -/
def ExprList.size : ExprList → Nat
  | .nil => 0
  | .cons _ t => t.size + 1

/-- Number of entries of a `DictList` (`dictionary->value.size()`). -/
def DictList.size : DictList → Nat
  | .nil => 0
  | .cons _ _ t => t.size + 1

/-- Concatenation of `ExprList`s. -/
def ExprList.append : ExprList → ExprList → ExprList
  | .nil, ys => ys
  | .cons x xs, ys => .cons x (xs.append ys)

/-- Reversal of an `ExprList`. -/
def ExprList.reverse : ExprList → ExprList
  | .nil => .nil
  | .cons x xs => xs.reverse.append (.cons x .nil)

/-- The name of a declaration statement.  Models the unchecked
`static_cast<Declaration *>(...)->name` the source performs on function
arguments (the parser only ever supplies `Declaration` nodes there). -/
def stmtName : Stmt → String
  | .Declaration _ name _ _ => name
  | _ => ""

/-- The reverse `OP_ONLY_STORE` parameter-binding loop of `RULE_FUNCTION`
(`for (int16_t i = arguments.size() - 1; i >= 0; i--)`): for each argument,
last first, emit `OP_ONLY_STORE` followed by the argument name constant. -/
def compileArgsBind : StmtList → CompilerS → CompilerS
  | .nil, s => s
  | .cons a rest, s =>
    let s := compileArgsBind rest s
    (add_constant_only (.vstring (stmtName a)) (add_opcode .OP_ONLY_STORE s)).1

/-- Source `Compiler::compile(Token op, bool unary)`: operator-token emission.
Exactly twelve token types are recognized; anything else is fatal. -/
def compile_token (op : Token) (unary : Bool) (s : CompilerS) :
    Except CompileErr CompilerS :=
  let s := { s with current_line := op.line }
  match op.type with
  | .TOKEN_PLUS => .ok (add_opcode .OP_ADD s)
  | .TOKEN_MINUS => .ok (if unary then add_opcode .OP_MINUS s else add_opcode .OP_SUB s)
  | .TOKEN_STAR => .ok (add_opcode .OP_MUL s)
  | .TOKEN_SLASH => .ok (add_opcode .OP_DIV s)
  | .TOKEN_BANG => .ok (add_opcode .OP_NOT s)
  | .TOKEN_EQUAL => .ok (add_opcode .OP_STORE s)
  | .TOKEN_EQUAL_EQUAL => .ok (add_opcode .OP_EQ s)
  | .TOKEN_BANG_EQUAL => .ok (add_opcode .OP_NEQ s)
  | .TOKEN_LOWER => .ok (add_opcode .OP_LT s)
  | .TOKEN_LOWER_EQUAL => .ok (add_opcode .OP_LTE s)
  | .TOKEN_HIGHER => .ok (add_opcode .OP_HT s)
  | .TOKEN_HIGHER_EQUAL => .ok (add_opcode .OP_HTE s)
  | _ => .error (.unknownToken op.line)

mutual

/-- Source `Compiler::compile(Statement *)`: statement emission. -/
def compileStmt : Stmt → CompilerS → Except CompileErr CompilerS
  | .ExpressionRule line, _ => .error (.invalidRule line)
  | .StatementRule line, _ => .error (.invalidRule line)
  | .Print line expression, s =>
    let s := { s with current_line := line }
    match compileExpr expression s with
    | .error e => .error e
    | .ok s => .ok (add_opcode .OP_PRINT s)
  | .ExpressionStatement line expression, s =>
    let s := { s with current_line := line }
    match compileExpr expression s with
    | .error e => .error e
    | .ok s => .ok (add_opcode .OP_POP s)
  | .Declaration line name type initializer, s =>
    let s := { s with current_line := line }
    let s := add_opcode .OP_DECLARE s
    let s := (add_constant_only (.vstring name) s).1
    let s := (add_constant_only (.vtype type) s).1
    match initializer with
    | .none => .ok s
    | .some init =>
      match compileExpr init s with
      | .error e => .error e
      | .ok s =>
        let s := add_opcode .OP_STORE s
        let s := (add_constant_only (.vstring name) s).1
        .ok (add_opcode .OP_POP s)
  | .Return line value, s =>
    let s := { s with current_line := line }
    match compileExpr value s with
    | .error e => .error e
    | .ok s => .ok (add_opcode .OP_RETURN s)
  | .If line condition thenBranch elseBranch, s =>
    let s := { s with current_line := line }
    match elseBranch with
    | .cons _ _ => .ok s
    | .nil =>
      match compileExpr condition s with
      | .error e => .error e
      | .ok s =>
        let s := add_opcode .OP_BRANCH_FALSE s
        let r := add_constant_only (.vint 0) s
        let constant_index := r.2
        let s := r.1
        let start_index := current_code_line s
        match compileStmtList thenBranch s with
        | .error e => .error e
        | .ok s =>
          .ok (modify_constant constant_index
            (.vint ((current_code_line s : Int) - (start_index : Int))) s)
  | .While line condition body, s =>
    let s := { s with current_line := line }
    let initial_index := current_code_line s
    match compileExpr condition s with
    | .error e => .error e
    | .ok s =>
      let s := add_opcode .OP_BRANCH_FALSE s
      let r := add_constant_only (.vint 0) s
      let constant_index := r.2
      let s := r.1
      let start_index := current_code_line s
      match compileStmtList body s with
      | .error e => .error e
      | .ok s =>
        let s := add_opcode .OP_RJUMP s
        let s := (add_constant_only
          (.vint (-((current_code_line s : Int) - (initial_index : Int)))) s).1
        .ok (modify_constant constant_index
          (.vint ((current_code_line s : Int) - (start_index : Int) + 1)) s)
  | .UnknownRule line, _ => .error (.invalidStatement line)

/-- Sequential statement emission (the `for (auto node : ...)` loops). -/
def compileStmtList : StmtList → CompilerS → Except CompileErr CompilerS
  | .nil, s => .ok s
  | .cons r rest, s =>
    match compileStmt r s with
    | .error e => .error e
    | .ok s => compileStmtList rest s

/-- Source `Compiler::compile(Expression *)`: expression emission. -/
def compileExpr : Expr → CompilerS → Except CompileErr CompilerS
  | .Integer line value, s =>
    let s := { s with current_line := line }
    .ok (add_constant (.vint value) s)
  | .FloatLit line value, s =>
    let s := { s with current_line := line }
    .ok (add_constant (.vfloat value) s)
  | .StringLit line value, s =>
    let s := { s with current_line := line }
    .ok (add_constant (.vstring value) s)
  | .Boolean line value, s =>
    let s := { s with current_line := line }
    .ok (add_constant (.vbool value) s)
  | .ListExpr line value, s =>
    let s := { s with current_line := line }
    match compileExprListRev value s with
    | .error e => .error e
    | .ok s =>
      let s := add_opcode .OP_LIST s
      .ok (add_constant_only (.vfloat (value.size : Rat)) s).1
  | .Dictionary line entries, s =>
    let s := { s with current_line := line }
    match compileDictRev entries s with
    | .error e => .error e
    | .ok s =>
      let s := add_opcode .OP_DICTIONARY s
      .ok (add_constant_only (.vfloat (entries.size : Rat)) s).1
  | .NoneExpr line, s =>
    let s := { s with current_line := line }
    .ok (add_constant .vnone s)
  | .Group line expression, s =>
    let s := { s with current_line := line }
    compileExpr expression s
  | .Unary line op right, s =>
    let s := { s with current_line := line }
    match compileExpr right s with
    | .error e => .error e
    | .ok s => compile_token op true s
  | .Binary line left op right, s =>
    let s := { s with current_line := line }
    match compileExpr left s with
    | .error e => .error e
    | .ok s =>
      match compileExpr right s with
      | .error e => .error e
      | .ok s => compile_token op false s
  | .Variable line name, s =>
    let s := { s with current_line := line }
    let s := add_opcode .OP_LOAD s
    .ok (add_constant_only (.vstring name) s).1
  | .Assign line name value, s =>
    let s := { s with current_line := line }
    match compileExpr value s with
    | .error e => .error e
    | .ok s =>
      let s := add_opcode .OP_STORE s
      .ok (add_constant_only (.vstring name) s).1
  | .AssignAccess line name value index, s =>
    let s := { s with current_line := line }
    match compileExpr value s with
    | .error e => .error e
    | .ok s =>
      match compileExpr index s with
      | .error e => .error e
      | .ok s =>
        let s := add_opcode .OP_STORE_ACCESS s
        .ok (add_constant_only (.vstring name) s).1
  | .Logical line left op right, s =>
    let s := { s with current_line := line }
    match compileExpr left s with
    | .error e => .error e
    | .ok s =>
      match compileExpr right s with
      | .error e => .error e
      | .ok s => compile_token op false s
  | .Function line arguments return_type body, s =>
    let s := { s with current_line := line }
    let memory := s.current_memory
    let s := { s with current_memory := .FUNCTIONS_MEMORY }
    let index : Int := (current_code_line s : Int)
    match compileStmtList arguments s with
    | .error e => .error e
    | .ok s =>
      let s := compileArgsBind arguments s
      match compileStmtList body s with
      | .error e => .error e
      | .ok s =>
        let s := add_constant .vnone s
        let s := add_opcode .OP_RETURN s
        let s := { s with current_memory := memory }
        let s := add_opcode .OP_FUNCTION s
        let s := (add_constant_only (.vint index) s).1
        .ok (add_constant_only (.vtype return_type) s).1
  | .Call line callee arguments, s =>
    let s := { s with current_line := line }
    match compileExprList arguments s with
    | .error e => .error e
    | .ok s =>
      let s := add_opcode .OP_CALL s
      let s := (add_constant_only (.vstring callee) s).1
      .ok (add_constant_only (.vint (arguments.size : Int)) s).1
  | .Access line name index, s =>
    let s := { s with current_line := line }
    match compileExpr index s with
    | .error e => .error e
    | .ok s =>
      let s := add_opcode .OP_ACCESS s
      .ok (add_constant_only (.vstring name) s).1
  | .UnknownExpr line, _ => .error (.invalidExpression line)

/-- Forward-order expression-list emission (call-argument loop). -/
def compileExprList : ExprList → CompilerS → Except CompileErr CompilerS
  | .nil, s => .ok s
  | .cons e rest, s =>
    match compileExpr e s with
    | .error err => .error err
    | .ok s => compileExprList rest s

/-- Reverse-order expression-list emission
(`for (int i = list->value.size() - 1; i >= 0; i--)`): the last element
is compiled first, the first element last. -/
def compileExprListRev : ExprList → CompilerS → Except CompileErr CompilerS
  | .nil, s => .ok s
  | .cons e rest, s =>
    match compileExprListRev rest s with
    | .error err => .error err
    | .ok s => compileExpr e s

/-- Reverse-order dictionary emission: for each key, last first, `PUSH` the
key string constant, then compile the associated value expression. -/
def compileDictRev : DictList → CompilerS → Except CompileErr CompilerS
  | .nil, s => .ok s
  | .cons key value rest, s =>
    match compileDictRev rest s with
    | .error err => .error err
    | .ok s =>
      let s := add_constant (.vstring key) s
      compileExpr value s

end

/-- The emission performed inside the `functions` region by `RULE_FUNCTION`
before the selector is restored: argument declarations, reverse
`OP_ONLY_STORE` parameter bindings, the body, and the unconditional
`PUSH none` + `RETURN` trailer. -/
def compileFunctionInner (arguments body : StmtList) (s : CompilerS) :
    Except CompileErr CompilerS :=
  match compileStmtList arguments s with
  | .error e => .error e
  | .ok s1 =>
    match compileStmtList body (compileArgsBind arguments s1) with
    | .error e => .error e
    | .ok s2 => .ok (add_opcode .OP_RETURN (add_constant .vnone s2))

/-- Driver glue (`Compiler::compile(const char *)`, with the parse step
factored out): emit each top-level statement, append `OP_EXIT`, and return
the program container. -/
def compile_source (stmts : StmtList) : Except CompileErr Program :=
  match compileStmtList stmts initCompiler with
  | .error e => .error e
  | .ok s => .ok (add_opcode .OP_EXIT s).program

/-! ## The three fatal conditions, as a predicate on the tree

`compile(Token,bool)` recognizes exactly twelve token types; emission of a
statement or expression terminates fatally exactly when the walk reaches a
bare placeholder rule, a rule kind outside the recognized set, or an
operator token outside the recognized twelve. -/

/-- The twelve operator token types recognized by `Compiler::compile(Token, bool)`. -/
def tokenRecognized : TokenType → Bool
  | .TOKEN_PLUS | .TOKEN_MINUS | .TOKEN_STAR | .TOKEN_SLASH
  | .TOKEN_BANG | .TOKEN_EQUAL | .TOKEN_EQUAL_EQUAL | .TOKEN_BANG_EQUAL
  | .TOKEN_LOWER | .TOKEN_LOWER_EQUAL | .TOKEN_HIGHER | .TOKEN_HIGHER_EQUAL => true
  | _ => false

mutual

/-- Emission of this statement reaches one of the three fatal conditions.
Note that an `if` with a non-empty else branch emits nothing, so nothing
below it is reached. -/
def stmtHasFatal : Stmt → Bool
  | .ExpressionRule _ => true
  | .StatementRule _ => true
  | .Print _ e => exprHasFatal e
  | .ExpressionStatement _ e => exprHasFatal e
  | .Declaration _ _ _ .none => false
  | .Declaration _ _ _ (.some init) => exprHasFatal init
  | .Return _ v => exprHasFatal v
  | .If _ c tb .nil => exprHasFatal c || stmtListHasFatal tb
  | .If _ _ _ (.cons _ _) => false
  | .While _ c body => exprHasFatal c || stmtListHasFatal body
  | .UnknownRule _ => true

def stmtListHasFatal : StmtList → Bool
  | .nil => false
  | .cons r rest => stmtHasFatal r || stmtListHasFatal rest

def exprHasFatal : Expr → Bool
  | .Integer _ _ => false
  | .FloatLit _ _ => false
  | .StringLit _ _ => false
  | .Boolean _ _ => false
  | .ListExpr _ v => exprListHasFatal v
  | .Dictionary _ entries => dictHasFatal entries
  | .NoneExpr _ => false
  | .Group _ e => exprHasFatal e
  | .Unary _ op right => exprHasFatal right || !tokenRecognized op.type
  | .Binary _ left op right =>
    exprHasFatal left || exprHasFatal right || !tokenRecognized op.type
  | .Variable _ _ => false
  | .Assign _ _ v => exprHasFatal v
  | .AssignAccess _ _ v idx => exprHasFatal v || exprHasFatal idx
  | .Logical _ left op right =>
    exprHasFatal left || exprHasFatal right || !tokenRecognized op.type
  | .Function _ arguments _ body => stmtListHasFatal arguments || stmtListHasFatal body
  | .Call _ _ arguments => exprListHasFatal arguments
  | .Access _ _ idx => exprHasFatal idx
  | .UnknownExpr _ => true

def exprListHasFatal : ExprList → Bool
  | .nil => false
  | .cons e rest => exprHasFatal e || exprListHasFatal rest

def dictHasFatal : DictList → Bool
  | .nil => false
  | .cons _ v rest => exprHasFatal v || dictHasFatal rest

end

/-! ## Monotonic-growth infrastructure

Emission only ever appends to code and lines streams, and back-patches only
touch pool entries created after the construct being compiled began; the
relations below capture that and are proved for every compile function. -/

/-- Region `m'` extends `m`: code and lines grew by appending only, the constants
pool did not shrink, and pool entries that already existed in `m` are
unchanged in `m'`. -/
def MemExt (m m' : Memory) : Prop :=
  (∃ t, m'.code = m.code ++ t) ∧ (∃ t, m'.lines = m.lines ++ t) ∧
  m.constants.length ≤ m'.constants.length ∧
  (∀ i, i < m.constants.length → m'.constants[i]? = m.constants[i]?)

/-- All three regions extend. -/
def ProgExt (p p' : Program) : Prop :=
  MemExt p.program p'.program ∧ MemExt p.functions p'.functions ∧
  MemExt p.classes p'.classes

/-- Whole-state extension: the selector is back to its entry value and all
regions extend. -/
def Ext (s s' : CompilerS) : Prop :=
  s'.current_memory = s.current_memory ∧ ProgExt s.program s'.program

theorem memExt_refl (m : Memory) : MemExt m m :=
  ⟨⟨[], by simp⟩, ⟨[], by simp⟩, le_refl _, fun _ _ => rfl⟩

theorem memExt_trans {a b c : Memory} (h1 : MemExt a b) (h2 : MemExt b c) :
    MemExt a c := by
  obtain ⟨⟨t1, hc1⟩, ⟨u1, hl1⟩, hk1, hg1⟩ := h1
  obtain ⟨⟨t2, hc2⟩, ⟨u2, hl2⟩, hk2, hg2⟩ := h2
  refine ⟨⟨t1 ++ t2, by rw [hc2, hc1, List.append_assoc]⟩,
    ⟨u1 ++ u2, by rw [hl2, hl1, List.append_assoc]⟩, le_trans hk1 hk2, ?_⟩
  intro i hi
  rw [hg2 i (lt_of_lt_of_le hi hk1), hg1 i hi]

theorem progExt_refl (p : Program) : ProgExt p p :=
  ⟨memExt_refl _, memExt_refl _, memExt_refl _⟩

theorem progExt_trans {a b c : Program} (h1 : ProgExt a b) (h2 : ProgExt b c) :
    ProgExt a c :=
  ⟨memExt_trans h1.1 h2.1, memExt_trans h1.2.1 h2.2.1, memExt_trans h1.2.2 h2.2.2⟩

theorem ext_refl (s : CompilerS) : Ext s s := ⟨rfl, progExt_refl _⟩

theorem ext_trans {a b c : CompilerS} (h1 : Ext a b) (h2 : Ext b c) : Ext a c :=
  ⟨h2.1.trans h1.1, progExt_trans h1.2 h2.2⟩

theorem getMemOf_setMemOf_same (p : Program) (k : MemoryKind) (m : Memory) :
    getMemOf (setMemOf p k m) k = m := by
  cases k <;> rfl

theorem getMemOf_setMemOf_ne (p : Program) (k k' : MemoryKind) (m : Memory)
    (h : k' ≠ k) : getMemOf (setMemOf p k m) k' = getMemOf p k' := by
  cases k <;> cases k' <;> first | rfl | exact absurd rfl h

/-- Pool-entry lookup is stable under appends of new entries. -/
theorem getElem?_append_left' {α : Type} (l t : List α) {i : Nat}
    (h : i < l.length) : (l ++ t)[i]? = l[i]? :=
  List.getElem?_append_left h

theorem getElem?_append_pair_left {α : Type} (c : List α) (a b : α) :
    (c ++ [a, b])[c.length]? = some a := by
  rw [List.getElem?_append_right (le_refl _)]
  simp

theorem getElem?_append_pair_right {α : Type} (c : List α) (a b : α) :
    (c ++ [a, b])[c.length + 1]? = some b := by
  rw [List.getElem?_append_right (by omega)]
  simp

theorem getElem_append_pair_left {α : Type} (c : List α) (a b : α)
    (h : c.length < (c ++ [a, b]).length) : (c ++ [a, b])[c.length] = a := by
  have h1 := getElem?_append_pair_left c a b
  rw [List.getElem?_eq_getElem h] at h1
  exact Option.some.inj h1

theorem getElem_append_pair_right {α : Type} (c : List α) (a b : α)
    (h : c.length + 1 < (c ++ [a, b]).length) : (c ++ [a, b])[c.length + 1] = b := by
  have h1 := getElem?_append_pair_right c a b
  rw [List.getElem?_eq_getElem h] at h1
  exact Option.some.inj h1

/-- A region whose streams grew only by appends extends the original. -/
theorem memExt_of_eqs {m m' : Memory} (a : List Slot) (b : List Nat)
    (c : List Value) (hc : m'.code = m.code ++ a) (hl : m'.lines = m.lines ++ b)
    (hk : m'.constants = m.constants ++ c) : MemExt m m' := by
  refine ⟨⟨a, hc⟩, ⟨b, hl⟩, by simp [hk], ?_⟩
  intro i hi
  rw [hk]
  exact getElem?_append_left' _ _ hi

theorem progExt_get {p p' : Program} (h : ProgExt p p') (k : MemoryKind) :
    MemExt (getMemOf p k) (getMemOf p' k) := by
  cases k
  · exact h.2.1
  · exact h.2.2
  · exact h.1

theorem progExt_setMemOf {p p' : Program} (k : MemoryKind) (m' : Memory)
    (h : ProgExt p p') (hm : MemExt (getMemOf p k) m') :
    ProgExt p (setMemOf p' k m') := by
  cases k
  · exact ⟨h.1, hm, h.2.2⟩
  · exact ⟨h.1, h.2.1, hm⟩
  · exact ⟨hm, h.2.1, h.2.2⟩

/-- Extending the active region extends the program. -/
theorem progExt_setMem (s : CompilerS) (m' : Memory)
    (h : MemExt (get_current_memory s) m') :
    ProgExt s.program (setMemOf s.program s.current_memory m') :=
  progExt_setMemOf s.current_memory m' (progExt_refl _) h

theorem ext_add_opcode (o : OpCode) (s : CompilerS) : Ext s (add_opcode o s) :=
  ⟨rfl, progExt_setMem s _
    (memExt_of_eqs [Slot.op o] [s.current_line] [] rfl rfl (by simp))⟩

theorem ext_add_constant_only (v : Value) (s : CompilerS) :
    Ext s (add_constant_only v s).1 :=
  ⟨rfl, progExt_setMem s _
    (memExt_of_eqs [Slot.idx (((get_current_memory s).constants ++ [v]).length - 1)]
      [] [v] rfl (by simp) rfl)⟩

theorem ext_add_constant (v : Value) (s : CompilerS) : Ext s (add_constant v s) :=
  ext_trans (ext_add_opcode .OP_PUSH s) (ext_add_constant_only v _)

theorem ext_set_line (s : CompilerS) (l : Nat) :
    Ext s { s with current_line := l } := ⟨rfl, progExt_refl _⟩

/-- The index returned by `add_constant_only` is the pool length before the
append (equivalently `new length - 1`). -/
theorem idx_add_constant_only (v : Value) (s : CompilerS) :
    (add_constant_only v s).2 = (get_current_memory s).constants.length := by
  simp [add_constant_only]

theorem ext_argsBind : ∀ (l : StmtList) (s : CompilerS), Ext s (compileArgsBind l s)
  | .nil, s => ext_refl s
  | .cons _ rest, s =>
    ext_trans (ext_argsBind rest s)
      (ext_trans (ext_add_opcode .OP_ONLY_STORE _) (ext_add_constant_only _ _))

theorem ext_compile_token (op : Token) (u : Bool) (s s' : CompilerS)
    (h : compile_token op u s = .ok s') : Ext s s' := by
  obtain ⟨t, ln⟩ := op
  cases t <;> cases u <;> simp [compile_token] at h <;> subst h <;>
    exact ext_trans (ext_set_line ..) (ext_add_opcode ..)

/-- Setting index `i ≥ base pool length` keeps the extension from the base. -/
theorem memExt_set_of_le {m m' : Memory} (h : MemExt m m') (i : Nat) (v : Value)
    (hi : m.constants.length ≤ i) :
    MemExt m { m' with constants := m'.constants.set i v } := by
  obtain ⟨hc, hl, hk, hg⟩ := h
  refine ⟨hc, hl, by simpa using hk, ?_⟩
  intro j hj
  rw [List.getElem?_set_ne (by omega : i ≠ j), hg j hj]

/-- Back-patching an index at or above the base state's pool size preserves
extension from that base state. -/
theorem ext_modify_of_le {s0 s : CompilerS} (i : Nat) (v : Value)
    (hext : Ext s0 s)
    (hi : (get_current_memory s0).constants.length ≤ i) :
    Ext s0 (modify_constant i v s) := by
  obtain ⟨hmem, hprog⟩ := hext
  refine ⟨hmem, ?_⟩
  refine progExt_setMemOf s.current_memory _ hprog ?_
  have hreg := progExt_get hprog s0.current_memory
  rw [← hmem] at hreg
  have hi' : (getMemOf s0.program s.current_memory).constants.length ≤ i := by
    rw [hmem]
    exact hi
  exact memExt_set_of_le hreg i v hi'

/-- Extension is monotone on the active region's pool size. -/
theorem ext_pool_le {s0 s1 : CompilerS} (h : Ext s0 s1) :
    (get_current_memory s0).constants.length ≤ (get_current_memory s1).constants.length := by
  obtain ⟨hm, hp⟩ := h
  have hx := (progExt_get hp s0.current_memory).2.2.1
  rw [get_current_memory, get_current_memory, hm]
  exact hx

/-- Extension is monotone on the active region's code length. -/
theorem ext_code_le {s0 s1 : CompilerS} (h : Ext s0 s1) :
    (get_current_memory s0).code.length ≤ (get_current_memory s1).code.length := by
  obtain ⟨hm, hp⟩ := h
  obtain ⟨t, ht⟩ := (progExt_get hp s0.current_memory).1
  rw [get_current_memory, get_current_memory, hm, ht]
  simp

/-- The active region's code of an extension is the old code plus a tail. -/
theorem ext_code_append {s0 s1 : CompilerS} (h : Ext s0 s1) :
    ∃ t, (get_current_memory s1).code = (get_current_memory s0).code ++ t := by
  obtain ⟨hm, hp⟩ := h
  obtain ⟨t, ht⟩ := (progExt_get hp s0.current_memory).1
  rw [get_current_memory, get_current_memory, hm]
  exact ⟨t, ht⟩

/-! ## Every compile function only extends the state

Proved by mutual structural induction over the AST: emission appends to
code and lines, never removes pool entries, only back-patches pool indices
created after the given construct began, and returns with the selector it
was entered with. -/

mutual

theorem extStmt : ∀ (r : Stmt) (s s' : CompilerS),
    compileStmt r s = .ok s' → Ext s s'
  | .ExpressionRule _, _, _, h => by simp [compileStmt] at h
  | .StatementRule _, _, _, h => by simp [compileStmt] at h
  | .UnknownRule _, _, _, h => by simp [compileStmt] at h
  | .Print line e, s, s', h => by
    simp only [compileStmt] at h
    split at h
    next err heq => exact Except.noConfusion h
    next s1 heq =>
      injection h with h
      subst h
      exact ext_trans (ext_set_line ..)
        (ext_trans (extExpr e _ _ heq) (ext_add_opcode ..))
  | .ExpressionStatement line e, s, s', h => by
    simp only [compileStmt] at h
    split at h
    next err heq => exact Except.noConfusion h
    next s1 heq =>
      injection h with h
      subst h
      exact ext_trans (ext_set_line ..)
        (ext_trans (extExpr e _ _ heq) (ext_add_opcode ..))
  | .Declaration line name ty .none, s, s', h => by
    simp only [compileStmt] at h
    injection h with h
    subst h
    exact ext_trans (ext_set_line ..)
      (ext_trans (ext_add_opcode ..)
        (ext_trans (ext_add_constant_only ..) (ext_add_constant_only ..)))
  | .Declaration line name ty (.some init), s, s', h => by
    simp only [compileStmt] at h
    split at h
    next err heq => exact Except.noConfusion h
    next s1 heq =>
      injection h with h
      subst h
      refine ext_trans (ext_set_line ..)
        (ext_trans (ext_add_opcode ..)
          (ext_trans (ext_add_constant_only ..)
            (ext_trans (ext_add_constant_only ..)
              (ext_trans (extExpr init _ _ heq) ?_))))
      exact ext_trans (ext_add_opcode ..)
        (ext_trans (ext_add_constant_only ..) (ext_add_opcode ..))
  | .Return line e, s, s', h => by
    simp only [compileStmt] at h
    split at h
    next err heq => exact Except.noConfusion h
    next s1 heq =>
      injection h with h
      subst h
      exact ext_trans (ext_set_line ..)
        (ext_trans (extExpr e _ _ heq) (ext_add_opcode ..))
  | .If line c tb (.cons e0 rest), s, s', h => by
    simp only [compileStmt] at h
    injection h with h
    subst h
    exact ext_set_line ..
  | .If line c tb .nil, s, s', h => by
    simp only [compileStmt] at h
    split at h
    next err heq => exact Except.noConfusion h
    next s1 heq =>
      split at h
      next err heq2 => exact Except.noConfusion h
      next s2 heq2 =>
        injection h with h
        subst h
        have h1 : Ext s (add_constant_only (.vint 0)
            (add_opcode .OP_BRANCH_FALSE s1)).1 :=
          ext_trans (ext_set_line ..)
            (ext_trans (extExpr c _ _ heq)
              (ext_trans (ext_add_opcode ..) (ext_add_constant_only ..)))
        have hall : Ext s s2 := ext_trans h1 (extStmtList tb _ _ heq2)
        refine ext_modify_of_le _ _ hall ?_
        rw [idx_add_constant_only]
        exact ext_pool_le (ext_trans (ext_set_line ..)
          (ext_trans (extExpr c _ _ heq) (ext_add_opcode ..)))
  | .While line c body, s, s', h => by
    simp only [compileStmt] at h
    split at h
    next err heq => exact Except.noConfusion h
    next s1 heq =>
      split at h
      next err heq2 => exact Except.noConfusion h
      next s2 heq2 =>
        injection h with h
        subst h
        have h1 : Ext s (add_constant_only (.vint 0)
            (add_opcode .OP_BRANCH_FALSE s1)).1 :=
          ext_trans (ext_set_line ..)
            (ext_trans (extExpr c _ _ heq)
              (ext_trans (ext_add_opcode ..) (ext_add_constant_only ..)))
        have hall : Ext s (add_constant_only
            (.vint (-((current_code_line (add_opcode .OP_RJUMP s2) : Int) -
              (current_code_line { s with current_line := line } : Int))))
            (add_opcode .OP_RJUMP s2)).1 :=
          ext_trans h1 (ext_trans (extStmtList body _ _ heq2)
            (ext_trans (ext_add_opcode ..) (ext_add_constant_only ..)))
        refine ext_modify_of_le _ _ hall ?_
        rw [idx_add_constant_only]
        exact ext_pool_le (ext_trans (ext_set_line ..)
          (ext_trans (extExpr c _ _ heq) (ext_add_opcode ..)))

theorem extStmtList : ∀ (l : StmtList) (s s' : CompilerS),
    compileStmtList l s = .ok s' → Ext s s'
  | .nil, s, s', h => by
    simp only [compileStmtList] at h
    injection h with h
    subst h
    exact ext_refl s
  | .cons r rest, s, s', h => by
    simp only [compileStmtList] at h
    split at h
    next err heq => exact Except.noConfusion h
    next s1 heq => exact ext_trans (extStmt r _ _ heq) (extStmtList rest _ _ h)

theorem extExpr : ∀ (e : Expr) (s s' : CompilerS),
    compileExpr e s = .ok s' → Ext s s'
  | .Integer line v, s, s', h => by
    simp only [compileExpr] at h
    injection h with h
    subst h
    exact ext_trans (ext_set_line ..) (ext_add_constant ..)
  | .FloatLit line v, s, s', h => by
    simp only [compileExpr] at h
    injection h with h
    subst h
    exact ext_trans (ext_set_line ..) (ext_add_constant ..)
  | .StringLit line v, s, s', h => by
    simp only [compileExpr] at h
    injection h with h
    subst h
    exact ext_trans (ext_set_line ..) (ext_add_constant ..)
  | .Boolean line v, s, s', h => by
    simp only [compileExpr] at h
    injection h with h
    subst h
    exact ext_trans (ext_set_line ..) (ext_add_constant ..)
  | .NoneExpr line, s, s', h => by
    simp only [compileExpr] at h
    injection h with h
    subst h
    exact ext_trans (ext_set_line ..) (ext_add_constant ..)
  | .ListExpr line v, s, s', h => by
    simp only [compileExpr] at h
    split at h
    next err heq => exact Except.noConfusion h
    next s1 heq =>
      injection h with h
      subst h
      exact ext_trans (ext_set_line ..)
        (ext_trans (extExprListRev v _ _ heq)
          (ext_trans (ext_add_opcode ..) (ext_add_constant_only ..)))
  | .Dictionary line entries, s, s', h => by
    simp only [compileExpr] at h
    split at h
    next err heq => exact Except.noConfusion h
    next s1 heq =>
      injection h with h
      subst h
      exact ext_trans (ext_set_line ..)
        (ext_trans (extDictRev entries _ _ heq)
          (ext_trans (ext_add_opcode ..) (ext_add_constant_only ..)))
  | .Group line e, s, s', h => by
    simp only [compileExpr] at h
    exact ext_trans (ext_set_line ..) (extExpr e _ _ h)
  | .Unary line op right, s, s', h => by
    simp only [compileExpr] at h
    split at h
    next err heq => exact Except.noConfusion h
    next s1 heq =>
      exact ext_trans (ext_set_line ..)
        (ext_trans (extExpr right _ _ heq) (ext_compile_token _ _ _ _ h))
  | .Binary line left op right, s, s', h => by
    simp only [compileExpr] at h
    split at h
    next err heq => exact Except.noConfusion h
    next s1 heq =>
      split at h
      next err heq2 => exact Except.noConfusion h
      next s2 heq2 =>
        exact ext_trans (ext_set_line ..)
          (ext_trans (extExpr left _ _ heq)
            (ext_trans (extExpr right _ _ heq2) (ext_compile_token _ _ _ _ h)))
  | .Variable line name, s, s', h => by
    simp only [compileExpr] at h
    injection h with h
    subst h
    exact ext_trans (ext_set_line ..)
      (ext_trans (ext_add_opcode ..) (ext_add_constant_only ..))
  | .Assign line name v, s, s', h => by
    simp only [compileExpr] at h
    split at h
    next err heq => exact Except.noConfusion h
    next s1 heq =>
      injection h with h
      subst h
      exact ext_trans (ext_set_line ..)
        (ext_trans (extExpr v _ _ heq)
          (ext_trans (ext_add_opcode ..) (ext_add_constant_only ..)))
  | .AssignAccess line name v idx, s, s', h => by
    simp only [compileExpr] at h
    split at h
    next err heq => exact Except.noConfusion h
    next s1 heq =>
      split at h
      next err heq2 => exact Except.noConfusion h
      next s2 heq2 =>
        injection h with h
        subst h
        exact ext_trans (ext_set_line ..)
          (ext_trans (extExpr v _ _ heq)
            (ext_trans (extExpr idx _ _ heq2)
              (ext_trans (ext_add_opcode ..) (ext_add_constant_only ..))))
  | .Logical line left op right, s, s', h => by
    simp only [compileExpr] at h
    split at h
    next err heq => exact Except.noConfusion h
    next s1 heq =>
      split at h
      next err heq2 => exact Except.noConfusion h
      next s2 heq2 =>
        exact ext_trans (ext_set_line ..)
          (ext_trans (extExpr left _ _ heq)
            (ext_trans (extExpr right _ _ heq2) (ext_compile_token _ _ _ _ h)))
  | .Function line arguments rt body, s, s', h => by
    simp only [compileExpr] at h
    split at h
    next err heq => exact Except.noConfusion h
    next s1 heq =>
      split at h
      next err heq2 => exact Except.noConfusion h
      next s2 heq2 =>
        injection h with h
        subst h
        have p1 : ProgExt s.program s1.program := (extStmtList arguments _ _ heq).2
        have p2 : ProgExt s1.program (compileArgsBind arguments s1).program :=
          (ext_argsBind ..).2
        have p3 : ProgExt (compileArgsBind arguments s1).program s2.program :=
          (extStmtList body _ _ heq2).2
        have p4 : ProgExt s2.program
            (add_opcode .OP_RETURN (add_constant .vnone s2)).program :=
          (ext_trans (ext_add_constant ..) (ext_add_opcode ..)).2
        refine ⟨rfl, progExt_trans p1 (progExt_trans p2 (progExt_trans p3
          (progExt_trans p4 ?_)))⟩
        exact (ext_trans (ext_add_opcode ..)
          (ext_trans (ext_add_constant_only ..) (ext_add_constant_only ..))).2
  | .Call line callee arguments, s, s', h => by
    simp only [compileExpr] at h
    split at h
    next err heq => exact Except.noConfusion h
    next s1 heq =>
      injection h with h
      subst h
      exact ext_trans (ext_set_line ..)
        (ext_trans (extExprList arguments _ _ heq)
          (ext_trans (ext_add_opcode ..)
            (ext_trans (ext_add_constant_only ..) (ext_add_constant_only ..))))
  | .Access line name idx, s, s', h => by
    simp only [compileExpr] at h
    split at h
    next err heq => exact Except.noConfusion h
    next s1 heq =>
      injection h with h
      subst h
      exact ext_trans (ext_set_line ..)
        (ext_trans (extExpr idx _ _ heq)
          (ext_trans (ext_add_opcode ..) (ext_add_constant_only ..)))
  | .UnknownExpr _, _, _, h => by simp [compileExpr] at h

theorem extExprList : ∀ (l : ExprList) (s s' : CompilerS),
    compileExprList l s = .ok s' → Ext s s'
  | .nil, s, s', h => by
    simp only [compileExprList] at h
    injection h with h
    subst h
    exact ext_refl s
  | .cons e rest, s, s', h => by
    simp only [compileExprList] at h
    split at h
    next err heq => exact Except.noConfusion h
    next s1 heq => exact ext_trans (extExpr e _ _ heq) (extExprList rest _ _ h)

theorem extExprListRev : ∀ (l : ExprList) (s s' : CompilerS),
    compileExprListRev l s = .ok s' → Ext s s'
  | .nil, s, s', h => by
    simp only [compileExprListRev] at h
    injection h with h
    subst h
    exact ext_refl s
  | .cons e rest, s, s', h => by
    simp only [compileExprListRev] at h
    split at h
    next err heq => exact Except.noConfusion h
    next s1 heq => exact ext_trans (extExprListRev rest _ _ heq) (extExpr e _ _ h)

theorem extDictRev : ∀ (l : DictList) (s s' : CompilerS),
    compileDictRev l s = .ok s' → Ext s s'
  | .nil, s, s', h => by
    simp only [compileDictRev] at h
    injection h with h
    subst h
    exact ext_refl s
  | .cons k v rest, s, s', h => by
    simp only [compileDictRev] at h
    split at h
    next err heq => exact Except.noConfusion h
    next s1 heq =>
      exact ext_trans (extDictRev rest _ _ heq)
        (ext_trans (ext_add_constant ..) (extExpr v _ _ h))

end

/-! ## Success of emission is exactly the absence of the fatal conditions -/

theorem tok_of_ok (op : Token) (u : Bool) (s s' : CompilerS)
    (h : compile_token op u s = .ok s') : tokenRecognized op.type = true := by
  obtain ⟨t, ln⟩ := op
  cases t <;> simp_all [compile_token, tokenRecognized]

theorem tok_ok (op : Token) (u : Bool) (s : CompilerS)
    (h : tokenRecognized op.type = true) :
    ∃ s', compile_token op u s = .ok s' := by
  obtain ⟨t, ln⟩ := op
  cases t <;> simp_all [compile_token, tokenRecognized]

mutual

theorem fatStmt : ∀ (r : Stmt) (s s' : CompilerS),
    compileStmt r s = .ok s' → stmtHasFatal r = false
  | .ExpressionRule _, _, _, h => by simp [compileStmt] at h
  | .StatementRule _, _, _, h => by simp [compileStmt] at h
  | .UnknownRule _, _, _, h => by simp [compileStmt] at h
  | .Print line e, s, s', h => by
    simp only [compileStmt] at h
    split at h
    next err heq => exact Except.noConfusion h
    next s1 heq => simpa [stmtHasFatal] using fatExpr e _ _ heq
  | .ExpressionStatement line e, s, s', h => by
    simp only [compileStmt] at h
    split at h
    next err heq => exact Except.noConfusion h
    next s1 heq => simpa [stmtHasFatal] using fatExpr e _ _ heq
  | .Declaration line name ty .none, s, s', h => by
    simp [stmtHasFatal]
  | .Declaration line name ty (.some init), s, s', h => by
    simp only [compileStmt] at h
    split at h
    next err heq => exact Except.noConfusion h
    next s1 heq => simpa [stmtHasFatal] using fatExpr init _ _ heq
  | .Return line e, s, s', h => by
    simp only [compileStmt] at h
    split at h
    next err heq => exact Except.noConfusion h
    next s1 heq => simpa [stmtHasFatal] using fatExpr e _ _ heq
  | .If line c tb (.cons e0 rest), s, s', h => by
    simp [stmtHasFatal]
  | .If line c tb .nil, s, s', h => by
    simp only [compileStmt] at h
    split at h
    next err heq => exact Except.noConfusion h
    next s1 heq =>
      split at h
      next err heq2 => exact Except.noConfusion h
      next s2 heq2 =>
        simp [stmtHasFatal, fatExpr c _ _ heq, fatStmtList tb _ _ heq2]
  | .While line c body, s, s', h => by
    simp only [compileStmt] at h
    split at h
    next err heq => exact Except.noConfusion h
    next s1 heq =>
      split at h
      next err heq2 => exact Except.noConfusion h
      next s2 heq2 =>
        simp [stmtHasFatal, fatExpr c _ _ heq, fatStmtList body _ _ heq2]

theorem fatStmtList : ∀ (l : StmtList) (s s' : CompilerS),
    compileStmtList l s = .ok s' → stmtListHasFatal l = false
  | .nil, s, s', _ => by simp [stmtListHasFatal]
  | .cons r rest, s, s', h => by
    simp only [compileStmtList] at h
    split at h
    next err heq => exact Except.noConfusion h
    next s1 heq =>
      simp [stmtListHasFatal, fatStmt r _ _ heq, fatStmtList rest _ _ h]

theorem fatExpr : ∀ (e : Expr) (s s' : CompilerS),
    compileExpr e s = .ok s' → exprHasFatal e = false
  | .Integer _ _, _, _, _ => by simp [exprHasFatal]
  | .FloatLit _ _, _, _, _ => by simp [exprHasFatal]
  | .StringLit _ _, _, _, _ => by simp [exprHasFatal]
  | .Boolean _ _, _, _, _ => by simp [exprHasFatal]
  | .NoneExpr _, _, _, _ => by simp [exprHasFatal]
  | .Variable _ _, _, _, _ => by simp [exprHasFatal]
  | .UnknownExpr _, _, _, h => by simp [compileExpr] at h
  | .ListExpr line v, s, s', h => by
    simp only [compileExpr] at h
    split at h
    next err heq => exact Except.noConfusion h
    next s1 heq => simpa [exprHasFatal] using fatExprListRev v _ _ heq
  | .Dictionary line entries, s, s', h => by
    simp only [compileExpr] at h
    split at h
    next err heq => exact Except.noConfusion h
    next s1 heq => simpa [exprHasFatal] using fatDictRev entries _ _ heq
  | .Group line e, s, s', h => by
    simp only [compileExpr] at h
    simpa [exprHasFatal] using fatExpr e _ _ h
  | .Unary line op right, s, s', h => by
    simp only [compileExpr] at h
    split at h
    next err heq => exact Except.noConfusion h
    next s1 heq =>
      simp [exprHasFatal, fatExpr right _ _ heq, tok_of_ok _ _ _ _ h]
  | .Binary line left op right, s, s', h => by
    simp only [compileExpr] at h
    split at h
    next err heq => exact Except.noConfusion h
    next s1 heq =>
      split at h
      next err heq2 => exact Except.noConfusion h
      next s2 heq2 =>
        simp [exprHasFatal, fatExpr left _ _ heq, fatExpr right _ _ heq2,
          tok_of_ok _ _ _ _ h]
  | .Assign line name v, s, s', h => by
    simp only [compileExpr] at h
    split at h
    next err heq => exact Except.noConfusion h
    next s1 heq => simpa [exprHasFatal] using fatExpr v _ _ heq
  | .AssignAccess line name v idx, s, s', h => by
    simp only [compileExpr] at h
    split at h
    next err heq => exact Except.noConfusion h
    next s1 heq =>
      split at h
      next err heq2 => exact Except.noConfusion h
      next s2 heq2 =>
        simp [exprHasFatal, fatExpr v _ _ heq, fatExpr idx _ _ heq2]
  | .Logical line left op right, s, s', h => by
    simp only [compileExpr] at h
    split at h
    next err heq => exact Except.noConfusion h
    next s1 heq =>
      split at h
      next err heq2 => exact Except.noConfusion h
      next s2 heq2 =>
        simp [exprHasFatal, fatExpr left _ _ heq, fatExpr right _ _ heq2,
          tok_of_ok _ _ _ _ h]
  | .Function line arguments rt body, s, s', h => by
    simp only [compileExpr] at h
    split at h
    next err heq => exact Except.noConfusion h
    next s1 heq =>
      split at h
      next err heq2 => exact Except.noConfusion h
      next s2 heq2 =>
        simp [exprHasFatal, fatStmtList arguments _ _ heq,
          fatStmtList body _ _ heq2]
  | .Call line callee arguments, s, s', h => by
    simp only [compileExpr] at h
    split at h
    next err heq => exact Except.noConfusion h
    next s1 heq => simpa [exprHasFatal] using fatExprList arguments _ _ heq
  | .Access line name idx, s, s', h => by
    simp only [compileExpr] at h
    split at h
    next err heq => exact Except.noConfusion h
    next s1 heq => simpa [exprHasFatal] using fatExpr idx _ _ heq

theorem fatExprList : ∀ (l : ExprList) (s s' : CompilerS),
    compileExprList l s = .ok s' → exprListHasFatal l = false
  | .nil, _, _, _ => by simp [exprListHasFatal]
  | .cons e rest, s, s', h => by
    simp only [compileExprList] at h
    split at h
    next err heq => exact Except.noConfusion h
    next s1 heq =>
      simp [exprListHasFatal, fatExpr e _ _ heq, fatExprList rest _ _ h]

theorem fatExprListRev : ∀ (l : ExprList) (s s' : CompilerS),
    compileExprListRev l s = .ok s' → exprListHasFatal l = false
  | .nil, _, _, _ => by simp [exprListHasFatal]
  | .cons e rest, s, s', h => by
    simp only [compileExprListRev] at h
    split at h
    next err heq => exact Except.noConfusion h
    next s1 heq =>
      simp [exprListHasFatal, fatExprListRev rest _ _ heq, fatExpr e _ _ h]

theorem fatDictRev : ∀ (l : DictList) (s s' : CompilerS),
    compileDictRev l s = .ok s' → dictHasFatal l = false
  | .nil, _, _, _ => by simp [dictHasFatal]
  | .cons k v rest, s, s', h => by
    simp only [compileDictRev] at h
    split at h
    next err heq => exact Except.noConfusion h
    next s1 heq =>
      simp [dictHasFatal, fatDictRev rest _ _ heq, fatExpr v _ _ h]

end

mutual

theorem errStmt : ∀ (r : Stmt) (s : CompilerS), stmtHasFatal r = false →
    ∃ s', compileStmt r s = .ok s'
  | .ExpressionRule _, _, hF => by simp [stmtHasFatal] at hF
  | .StatementRule _, _, hF => by simp [stmtHasFatal] at hF
  | .UnknownRule _, _, hF => by simp [stmtHasFatal] at hF
  | .Print line e, s, hF => by
    simp only [stmtHasFatal] at hF
    obtain ⟨s1, h1⟩ := errExpr e { s with current_line := line } hF
    exact ⟨_, by simp only [compileStmt, h1]; try rfl⟩
  | .ExpressionStatement line e, s, hF => by
    simp only [stmtHasFatal] at hF
    obtain ⟨s1, h1⟩ := errExpr e { s with current_line := line } hF
    exact ⟨_, by simp only [compileStmt, h1]; try rfl⟩
  | .Declaration line name ty .none, s, _ => ⟨_, rfl⟩
  | .Declaration line name ty (.some init), s, hF => by
    simp only [stmtHasFatal] at hF
    obtain ⟨s1, h1⟩ := errExpr init
      (add_constant_only (.vtype ty) (add_constant_only (.vstring name)
        (add_opcode .OP_DECLARE { s with current_line := line })).1).1 hF
    exact ⟨_, by simp only [compileStmt, h1]; try rfl⟩
  | .Return line e, s, hF => by
    simp only [stmtHasFatal] at hF
    obtain ⟨s1, h1⟩ := errExpr e { s with current_line := line } hF
    exact ⟨_, by simp only [compileStmt, h1]; try rfl⟩
  | .If line c tb (.cons e0 rest), s, _ => ⟨_, rfl⟩
  | .If line c tb .nil, s, hF => by
    simp only [stmtHasFatal, Bool.or_eq_false_iff] at hF
    obtain ⟨s1, h1⟩ := errExpr c { s with current_line := line } hF.1
    obtain ⟨s2, h2⟩ := errStmtList tb
      (add_constant_only (.vint 0) (add_opcode .OP_BRANCH_FALSE s1)).1 hF.2
    exact ⟨_, by simp only [compileStmt, h1, h2]; try rfl⟩
  | .While line c body, s, hF => by
    simp only [stmtHasFatal, Bool.or_eq_false_iff] at hF
    obtain ⟨s1, h1⟩ := errExpr c { s with current_line := line } hF.1
    obtain ⟨s2, h2⟩ := errStmtList body
      (add_constant_only (.vint 0) (add_opcode .OP_BRANCH_FALSE s1)).1 hF.2
    exact ⟨_, by simp only [compileStmt, h1, h2]; try rfl⟩

theorem errStmtList : ∀ (l : StmtList) (s : CompilerS), stmtListHasFatal l = false →
    ∃ s', compileStmtList l s = .ok s'
  | .nil, s, _ => ⟨s, rfl⟩
  | .cons r rest, s, hF => by
    simp only [stmtListHasFatal, Bool.or_eq_false_iff] at hF
    obtain ⟨s1, h1⟩ := errStmt r s hF.1
    obtain ⟨s2, h2⟩ := errStmtList rest s1 hF.2
    exact ⟨s2, by simp only [compileStmtList, h1, h2]; try rfl⟩

theorem errExpr : ∀ (e : Expr) (s : CompilerS), exprHasFatal e = false →
    ∃ s', compileExpr e s = .ok s'
  | .Integer _ _, _, _ => ⟨_, rfl⟩
  | .FloatLit _ _, _, _ => ⟨_, rfl⟩
  | .StringLit _ _, _, _ => ⟨_, rfl⟩
  | .Boolean _ _, _, _ => ⟨_, rfl⟩
  | .NoneExpr _, _, _ => ⟨_, rfl⟩
  | .Variable _ _, _, _ => ⟨_, rfl⟩
  | .UnknownExpr _, _, hF => by simp [exprHasFatal] at hF
  | .ListExpr line v, s, hF => by
    simp only [exprHasFatal] at hF
    obtain ⟨s1, h1⟩ := errExprListRev v { s with current_line := line } hF
    exact ⟨_, by simp only [compileExpr, h1]; try rfl⟩
  | .Dictionary line entries, s, hF => by
    simp only [exprHasFatal] at hF
    obtain ⟨s1, h1⟩ := errDictRev entries { s with current_line := line } hF
    exact ⟨_, by simp only [compileExpr, h1]; try rfl⟩
  | .Group line e, s, hF => by
    simp only [exprHasFatal] at hF
    obtain ⟨s1, h1⟩ := errExpr e { s with current_line := line } hF
    exact ⟨s1, by simp only [compileExpr, h1]; try rfl⟩
  | .Unary line op right, s, hF => by
    simp only [exprHasFatal, Bool.or_eq_false_iff, Bool.not_eq_false'] at hF
    obtain ⟨s1, h1⟩ := errExpr right { s with current_line := line } hF.1
    obtain ⟨s2, h2⟩ := tok_ok op true s1 hF.2
    exact ⟨s2, by simp only [compileExpr, h1, h2]; try rfl⟩
  | .Binary line left op right, s, hF => by
    simp only [exprHasFatal, Bool.or_eq_false_iff, Bool.not_eq_false'] at hF
    obtain ⟨s1, h1⟩ := errExpr left { s with current_line := line } hF.1.1
    obtain ⟨s2, h2⟩ := errExpr right s1 hF.1.2
    obtain ⟨s3, h3⟩ := tok_ok op false s2 hF.2
    exact ⟨s3, by simp only [compileExpr, h1, h2, h3]; try rfl⟩
  | .Assign line name v, s, hF => by
    simp only [exprHasFatal] at hF
    obtain ⟨s1, h1⟩ := errExpr v { s with current_line := line } hF
    exact ⟨_, by simp only [compileExpr, h1]; try rfl⟩
  | .AssignAccess line name v idx, s, hF => by
    simp only [exprHasFatal, Bool.or_eq_false_iff] at hF
    obtain ⟨s1, h1⟩ := errExpr v { s with current_line := line } hF.1
    obtain ⟨s2, h2⟩ := errExpr idx s1 hF.2
    exact ⟨_, by simp only [compileExpr, h1, h2]; try rfl⟩
  | .Logical line left op right, s, hF => by
    simp only [exprHasFatal, Bool.or_eq_false_iff, Bool.not_eq_false'] at hF
    obtain ⟨s1, h1⟩ := errExpr left { s with current_line := line } hF.1.1
    obtain ⟨s2, h2⟩ := errExpr right s1 hF.1.2
    obtain ⟨s3, h3⟩ := tok_ok op false s2 hF.2
    exact ⟨s3, by simp only [compileExpr, h1, h2, h3]; try rfl⟩
  | .Function line arguments rt body, s, hF => by
    simp only [exprHasFatal, Bool.or_eq_false_iff] at hF
    obtain ⟨s1, h1⟩ := errStmtList arguments
      { s with current_line := line, current_memory := .FUNCTIONS_MEMORY } hF.1
    obtain ⟨s2, h2⟩ := errStmtList body (compileArgsBind arguments s1) hF.2
    exact ⟨_, by simp only [compileExpr, h1, h2]; try rfl⟩
  | .Call line callee arguments, s, hF => by
    simp only [exprHasFatal] at hF
    obtain ⟨s1, h1⟩ := errExprList arguments { s with current_line := line } hF
    exact ⟨_, by simp only [compileExpr, h1]; try rfl⟩
  | .Access line name idx, s, hF => by
    simp only [exprHasFatal] at hF
    obtain ⟨s1, h1⟩ := errExpr idx { s with current_line := line } hF
    exact ⟨_, by simp only [compileExpr, h1]; try rfl⟩

theorem errExprList : ∀ (l : ExprList) (s : CompilerS), exprListHasFatal l = false →
    ∃ s', compileExprList l s = .ok s'
  | .nil, s, _ => ⟨s, rfl⟩
  | .cons e rest, s, hF => by
    simp only [exprListHasFatal, Bool.or_eq_false_iff] at hF
    obtain ⟨s1, h1⟩ := errExpr e s hF.1
    obtain ⟨s2, h2⟩ := errExprList rest s1 hF.2
    exact ⟨s2, by simp only [compileExprList, h1, h2]; try rfl⟩

theorem errExprListRev : ∀ (l : ExprList) (s : CompilerS), exprListHasFatal l = false →
    ∃ s', compileExprListRev l s = .ok s'
  | .nil, s, _ => ⟨s, rfl⟩
  | .cons e rest, s, hF => by
    simp only [exprListHasFatal, Bool.or_eq_false_iff] at hF
    obtain ⟨s1, h1⟩ := errExprListRev rest s hF.2
    obtain ⟨s2, h2⟩ := errExpr e s1 hF.1
    exact ⟨s2, by simp only [compileExprListRev, h1, h2]; try rfl⟩

theorem errDictRev : ∀ (l : DictList) (s : CompilerS), dictHasFatal l = false →
    ∃ s', compileDictRev l s = .ok s'
  | .nil, s, _ => ⟨s, rfl⟩
  | .cons k v rest, s, hF => by
    simp only [dictHasFatal, Bool.or_eq_false_iff] at hF
    obtain ⟨s1, h1⟩ := errDictRev rest s hF.2
    obtain ⟨s2, h2⟩ := errExpr v (add_constant (.vstring k) s1) hF.1
    exact ⟨s2, by simp only [compileDictRev, h1, h2]; try rfl⟩

end

/-! ## Computation rules for the emission primitives -/

theorem get_set_current_memory (s : CompilerS) (m : Memory) :
    get_current_memory (set_current_memory s m) = m :=
  getMemOf_setMemOf_same s.program s.current_memory m

theorem get_add_opcode (o : OpCode) (s : CompilerS) :
    get_current_memory (add_opcode o s) =
      { get_current_memory s with
        code := (get_current_memory s).code ++ [Slot.op o],
        lines := (get_current_memory s).lines ++ [s.current_line] } :=
  get_set_current_memory s _

theorem get_add_constant_only (v : Value) (s : CompilerS) :
    get_current_memory (add_constant_only v s).1 =
      { get_current_memory s with
        constants := (get_current_memory s).constants ++ [v],
        code := (get_current_memory s).code ++
          [Slot.idx (get_current_memory s).constants.length] } := by
  have h : get_current_memory (add_constant_only v s).1 =
      { get_current_memory s with
        constants := (get_current_memory s).constants ++ [v],
        code := (get_current_memory s).code ++
          [Slot.idx (((get_current_memory s).constants ++ [v]).length - 1)] } :=
    get_set_current_memory s _
  rw [h]
  simp

theorem get_modify_constant (i : Nat) (v : Value) (s : CompilerS) :
    get_current_memory (modify_constant i v s) =
      { get_current_memory s with
        constants := (get_current_memory s).constants.set i v } :=
  get_set_current_memory s _

theorem cm_add_opcode (o : OpCode) (s : CompilerS) :
    (add_opcode o s).current_memory = s.current_memory := rfl

theorem cm_add_constant_only (v : Value) (s : CompilerS) :
    (add_constant_only v s).1.current_memory = s.current_memory := rfl

theorem cm_modify_constant (i : Nat) (v : Value) (s : CompilerS) :
    (modify_constant i v s).current_memory = s.current_memory := rfl

theorem set_get_current_memory (s : CompilerS) :
    set_current_memory s (get_current_memory s) = s := by
  obtain ⟨p, cm, cl⟩ := s
  cases cm <;> rfl

/-! ## The shape of the code emitted for a while statement -/

/-- Full characterization of a successfully compiled `while`: the active
region's code ends with `RJUMP` followed by its operand slot `k`; the
operand constant is the negation of (operand-slot position − loop head),
so the back jump measured from the operand slot itself lands on the first
slot of the condition; and the back-patched `BRANCH_FALSE` exit offset is
an int constant at a pool index below `k`. -/
theorem while_shape (line : Nat) (c : Expr) (body : StmtList) (s s' : CompilerS)
    (h : compileStmt (.While line c body) s = .ok s') :
    s'.current_memory = s.current_memory ∧
    ∃ t k,
      (get_current_memory s').code = t ++ [.op .OP_RJUMP, .idx k] ∧
      (get_current_memory s).code.length ≤ t.length ∧
      (get_current_memory s').constants[k]? =
        some (.vint (((get_current_memory s).code.length : Int) - ((t.length : Int) + 1))) ∧
      ∃ ci w, ci < k ∧ (get_current_memory s').constants[ci]? = some (.vint w) := by
  simp only [compileStmt] at h
  split at h
  next err heq => exact Except.noConfusion h
  next s1 heq =>
    split at h
    next err heq2 => exact Except.noConfusion h
    next s2 heq2 =>
      injection h with h
      subst h
      have E1 : Ext s s1 := ext_trans (ext_set_line ..) (extExpr c _ _ heq)
      have E3 : Ext s (add_constant_only (.vint 0) (add_opcode .OP_BRANCH_FALSE s1)).1 :=
        ext_trans E1 (ext_trans (ext_add_opcode ..) (ext_add_constant_only ..))
      have E4 : Ext s s2 := ext_trans E3 (extStmtList body _ _ heq2)
      -- the patch index is the pool position of the placeholder, which is
      -- strictly below the pool position of the RJUMP operand
      have hci : (add_constant_only (.vint 0) (add_opcode .OP_BRANCH_FALSE s1)).2 <
          (get_current_memory s2).constants.length := by
        have hlt := ext_pool_le (extStmtList body _ _ heq2)
        rw [get_add_constant_only, get_add_opcode] at hlt
        rw [idx_add_constant_only, get_add_opcode]
        simp only [List.length_append, List.length_cons, List.length_nil] at hlt ⊢
        omega
      refine ⟨E4.1, ?_⟩
      refine ⟨(get_current_memory s2).code,
        (get_current_memory s2).constants.length, ?_, ?_, ?_, ?_⟩
      · -- the code stream of the final state
        rw [get_modify_constant, get_add_constant_only, get_add_opcode]
        simp
      · exact ext_code_le E4
      · -- the RJUMP operand constant
        rw [get_modify_constant, get_add_constant_only, get_add_opcode]
        simp only
        rw [List.getElem?_set_ne (by omega)]
        rw [List.getElem?_concat_length]
        simp only [current_code_line, get_add_opcode, List.length_append,
          List.length_cons, List.length_nil, Option.some.injEq]
        have hhead : current_code_line { s with current_line := line } =
            (get_current_memory s).code.length := rfl
        congr 1
        simp only [current_code_line] at hhead
        rw [hhead]
        omega
      · -- the back-patched BRANCH_FALSE exit offset is an int constant
        rw [get_modify_constant, get_add_constant_only, get_add_opcode]
        exact ⟨(add_constant_only (.vint 0) (add_opcode .OP_BRANCH_FALSE s1)).2, _, hci,
          List.getElem?_set_eq (by simp; omega)⟩

/-! ## The shape of the code emitted for an if statement without else -/

/-- The `RULE_FUNCTION` case of expression emission, written as the
region-switch wrapper around `compileFunctionInner`.  Proved by cases on the
two recursive sub-compilations; both sides are the same cascade of matches. -/
theorem compileExpr_function_eq (line : Nat) (arguments : StmtList) (rt : String)
    (body : StmtList) (s : CompilerS) :
    compileExpr (.Function line arguments rt body) s =
      match compileFunctionInner arguments body
        { s with current_line := line, current_memory := .FUNCTIONS_MEMORY } with
      | .error e => .error e
      | .ok s1 =>
        .ok (add_constant_only (.vtype rt)
          (add_constant_only
            (.vint (current_code_line
              { s with current_line := line, current_memory := .FUNCTIONS_MEMORY } : Int))
            (add_opcode .OP_FUNCTION
              { s1 with current_memory := s.current_memory })).1).1 := by
  simp only [compileExpr, compileFunctionInner]
  cases compileStmtList arguments
      { s with current_line := line, current_memory := .FUNCTIONS_MEMORY } with
  | error e => rfl
  | ok sA =>
    dsimp only
    cases compileStmtList body (compileArgsBind arguments sA) with
    | error e => rfl
    | ok sB => rfl

/-- After `compileFunctionInner` the functions region's code ends with the
unconditional `PUSH`, none-constant-index, `RETURN` trailer, whatever the
body contained. -/
theorem inner_shape (arguments body : StmtList) (s0 s1 : CompilerS)
    (hmem : s0.current_memory = .FUNCTIONS_MEMORY)
    (h : compileFunctionInner arguments body s0 = .ok s1) :
    s1.current_memory = .FUNCTIONS_MEMORY ∧
    ∃ t k, s1.program.functions.code = t ++ [.op .OP_PUSH, .idx k, .op .OP_RETURN] ∧
      s1.program.functions.constants[k]? = some .vnone := by
  simp only [compileFunctionInner] at h
  split at h
  next err heqA => exact Except.noConfusion h
  next sA heqA =>
    split at h
    next err heqB => exact Except.noConfusion h
    next sB heqB =>
      injection h with h
      subst h
      have hselA : sA.current_memory = .FUNCTIONS_MEMORY :=
        (extStmtList arguments _ _ heqA).1.trans hmem
      have hselBind : (compileArgsBind arguments sA).current_memory =
          .FUNCTIONS_MEMORY := (ext_argsBind arguments sA).1.trans hselA
      have hselB : sB.current_memory = .FUNCTIONS_MEMORY :=
        (extStmtList body _ _ heqB).1.trans hselBind
      refine ⟨hselB, ?_⟩
      have h1 : (add_opcode .OP_RETURN (add_constant .vnone sB)).current_memory =
          MemoryKind.FUNCTIONS_MEMORY := hselB
      have hfun : (add_opcode .OP_RETURN (add_constant .vnone sB)).program.functions =
          get_current_memory (add_opcode .OP_RETURN (add_constant .vnone sB)) := by
        rw [get_current_memory, h1]
        rfl
      have hB : get_current_memory sB = sB.program.functions := by
        rw [get_current_memory, hselB]
        rfl
      rw [hfun, get_add_opcode]
      simp only [add_constant]
      rw [get_add_constant_only, get_add_opcode, hB]
      refine ⟨sB.program.functions.code, sB.program.functions.constants.length, ?_, ?_⟩
      · simp
      · simp [List.getElem?_concat_length]

/-! ## The element-emission order of list literals -/

/-- Forward emission distributes over `ExprList` concatenation. -/
theorem compileExprList_append : ∀ (xs ys : ExprList) (s : CompilerS),
    compileExprList (xs.append ys) s =
      match compileExprList xs s with
      | .error e => .error e
      | .ok s1 => compileExprList ys s1
  | .nil, ys, s => rfl
  | .cons e xs, ys, s => by
    simp only [ExprList.append, compileExprList]
    cases compileExpr e s with
    | error err => rfl
    | ok s1 => exact compileExprList_append xs ys s1

/-- The reverse-order element loop of `RULE_LIST` is exactly forward
emission of the reversed element list. -/
theorem compileExprListRev_eq : ∀ (l : ExprList) (s : CompilerS),
    compileExprListRev l s = compileExprList l.reverse s
  | .nil, s => rfl
  | .cons e rest, s => by
    simp only [compileExprListRev, ExprList.reverse]
    rw [compileExprList_append, ← compileExprListRev_eq rest s]
    cases compileExprListRev rest s with
    | error err => rfl
    | ok s1 =>
      simp only [compileExprList]
      cases compileExpr e s1 with
      | error err => rfl
      | ok s2 => rfl

/-! ## Claims -/

/-- Claim C1, counterexample to the claim as stated: a single
`add_constant_only` from a fresh compiler leaves the code stream one slot
longer than the lines stream, so `len(code) == len(lines)` does not hold
after every emission step. -/
theorem C1_counterexample :
    (get_current_memory (add_constant_only (.vint 5) initCompiler).1).code.length ≠
      (get_current_memory (add_constant_only (.vint 5) initCompiler).1).lines.length := by
  decide

/-- Claim C1, amended: `add_opcode` appends one slot to both the code and
the lines stream of the active region, but `add_constant_only` appends one
slot to the code stream only and leaves the lines stream untouched; a line
number is therefore recorded on opcode appends, not on appends of
constant-pool indices, and after each operand emission `len(code)` exceeds
`len(lines)` by one more. -/
theorem C1_lines_on_opcode_appends_only (o : OpCode) (v : Value) (s : CompilerS) :
    ((get_current_memory (add_opcode o s)).code.length =
        (get_current_memory s).code.length + 1 ∧
      (get_current_memory (add_opcode o s)).lines.length =
        (get_current_memory s).lines.length + 1) ∧
    ((get_current_memory (add_constant_only v s).1).code.length =
        (get_current_memory s).code.length + 1 ∧
      (get_current_memory (add_constant_only v s).1).lines.length =
        (get_current_memory s).lines.length) := by
  simp [get_add_opcode, get_add_constant_only]

/-- Claim C2, counterexample to the claim as stated: compiling
`x: int = 5` from a fresh compiler yields a program-region code stream whose
`STORE` operand is the fresh pool index 3 (a second copy of the name), not a
reuse of pool index 0 as the claim asserts. -/
theorem C2_counterexample :
    Except.map (fun p => p.program.code)
      (compile_source (.cons (.Declaration 1 "x" "int" (.some (.Integer 1 5))) .nil)) =
      .ok [.op .OP_DECLARE, .idx 0, .idx 1, .op .OP_PUSH, .idx 2,
        .op .OP_STORE, .idx 3, .op .OP_POP, .op .OP_EXIT] ∧
    ([.op .OP_DECLARE, .idx 0, .idx 1, .op .OP_PUSH, .idx 2,
        .op .OP_STORE, .idx 3, .op .OP_POP, .op .OP_EXIT] : List Slot) ≠
      [.op .OP_DECLARE, .idx 0, .idx 1, .op .OP_PUSH, .idx 2,
        .op .OP_STORE, .idx 0, .op .OP_POP, .op .OP_EXIT] :=
  ⟨rfl, by decide⟩

/-- Claim C2, amended: `x: int = 5` compiles to
`DECLARE, 0, 1, PUSH, 2, STORE, 3, POP, EXIT` with a four-entry constants
pool `["x", int-type, 5, "x"]`: the `STORE` operand is emitted by a second
`add_constant_only(name)`, which always appends a fresh pool entry rather
than reusing the name constant written for `DECLARE`. -/
theorem C2_declaration_bytecode :
    compile_source (.cons (.Declaration 1 "x" "int" (.some (.Integer 1 5))) .nil) =
      .ok { program :=
            { code := [.op .OP_DECLARE, .idx 0, .idx 1, .op .OP_PUSH, .idx 2,
                .op .OP_STORE, .idx 3, .op .OP_POP, .op .OP_EXIT],
              constants := [.vstring "x", .vtype "int", .vint 5, .vstring "x"],
              lines := [1, 1, 1, 1, 1] } } := rfl

/-- Claim C3, counterexample to the claim as stated: for
`while true:` (empty body) from a fresh compiler the emitted code is
`PUSH,0, BRANCH_FALSE,1, RJUMP,2` and the RJUMP operand constant (pool
index 2) is `-5`, not `-(6 - 0)`: the source evaluates
`current_code_length` before the operand slot is appended, so the offset
does not include the operand slot as the claim requires (the code length at
the slot after the operand is 6 and the loop head is 0). -/
theorem C3_counterexample :
    Except.map (fun s => ((get_current_memory s).code, (get_current_memory s).constants[2]?))
      (compileStmt (.While 1 (.Boolean 1 true) .nil) initCompiler) =
      .ok ([.op .OP_PUSH, .idx 0, .op .OP_BRANCH_FALSE, .idx 1, .op .OP_RJUMP, .idx 2],
        some (.vint (-5))) ∧
    Value.vint (-5) ≠ .vint (-((6 : Int) - 0)) :=
  ⟨rfl, by decide⟩

/-- Claim C3, amended: for every while statement that compiles, the active
region's code ends with `RJUMP` followed by its operand slot (the operand
slot sits at position `t.length + 1`), and the operand constant equals the
negation of (the operand slot's own position minus the code length recorded
at the loop head) — the source computes the offset after appending the
`RJUMP` opcode but before appending the operand slot, so adding the offset
to a PC positioned at the operand slot (not after it) lands on the first
slot of the condition. -/
theorem C3_while_rjump_offset (line : Nat) (c : Expr) (body : StmtList)
    (s s' : CompilerS) (h : compileStmt (.While line c body) s = .ok s') :
    ∃ t k,
      (get_current_memory s').code = t ++ [.op .OP_RJUMP, .idx k] ∧
      (get_current_memory s').constants[k]? =
        some (.vint (((get_current_memory s).code.length : Int) -
          ((t.length : Int) + 1))) := by
  obtain ⟨_, t, k, h1, _, h3, _⟩ := while_shape line c body s s' h
  exact ⟨t, k, h1, h3⟩

/-- Claim C3 witness: the amended theorem applied to `while true:` from a
fresh compiler. -/
theorem C3_witness :
    ∃ s', compileStmt (.While 1 (.Boolean 1 true) .nil) initCompiler = .ok s' ∧
      ∃ t k, (get_current_memory s').code = t ++ [.op .OP_RJUMP, .idx k] ∧
        (get_current_memory s').constants[k]? =
          some (.vint (((get_current_memory initCompiler).code.length : Int) -
            ((t.length : Int) + 1))) :=
  ⟨_, rfl, C3_while_rjump_offset 1 (.Boolean 1 true) .nil initCompiler _ rfl⟩

/-- Claim C4: for every if statement with an empty else branch that
compiles, the active region's code contains the `BRANCH_FALSE` opcode at
some position `j` followed by its operand slot holding pool index `k`, and
the back-patched constant at `k` equals the final code length minus
`j + 2` — the number of code slots emitted between the slot immediately
after the offset operand and the end of the then-branch. -/
theorem C4_if_backpatch (line : Nat) (c : Expr) (tb : StmtList) (s s' : CompilerS)
    (h : compileStmt (.If line c tb .nil) s = .ok s') :
    ∃ j k,
      (get_current_memory s').code[j]? = some (.op .OP_BRANCH_FALSE) ∧
      (get_current_memory s').code[j + 1]? = some (.idx k) ∧
      (get_current_memory s').constants[k]? =
        some (.vint (((get_current_memory s').code.length : Int) - ((j : Int) + 2))) := by
  simp only [compileStmt] at h
  split at h
  next err heq => exact Except.noConfusion h
  next s1 heq =>
    split at h
    next err heq2 => exact Except.noConfusion h
    next s2 heq2 =>
      injection h with h
      subst h
      obtain ⟨d, hd⟩ := ext_code_append (extStmtList tb _ _ heq2)
      rw [get_add_constant_only, get_add_opcode] at hd
      simp only [List.append_assoc, List.singleton_append, List.cons_append,
        List.nil_append] at hd
      have hpool : (get_current_memory s1).constants.length <
          (get_current_memory s2).constants.length := by
        have hlt := ext_pool_le (extStmtList tb _ _ heq2)
        rw [get_add_constant_only, get_add_opcode] at hlt
        simp only [List.length_append, List.length_cons, List.length_nil] at hlt
        omega
      refine ⟨(get_current_memory s1).code.length,
        (get_current_memory s1).constants.length, ?_, ?_, ?_⟩
      · rw [get_modify_constant]
        simp only
        rw [hd, List.getElem?_append_right (le_refl _)]
        simp
      · rw [get_modify_constant]
        simp only
        rw [hd, List.getElem?_append_right (by omega)]
        simp
      · rw [get_modify_constant]
        simp only
        rw [idx_add_constant_only, get_add_opcode]
        simp only
        rw [List.getElem?_set_eq (by omega)]
        have hccl : current_code_line (add_constant_only (.vint 0)
            (add_opcode .OP_BRANCH_FALSE s1)).1 =
            (get_current_memory s1).code.length + 2 := by
          simp only [current_code_line]
          rw [get_add_constant_only, get_add_opcode]
          simp
        rw [hccl]
        have hccl2 : current_code_line s2 = (get_current_memory s2).code.length := rfl
        rw [hccl2, hd]
        simp only [Option.some.injEq, Value.vint.injEq, List.length_append,
          List.length_cons]
        push_cast
        ring

/-- Claim C4 witness: the theorem applied to `if true: print true` from a
fresh compiler. -/
theorem C4_witness :
    ∃ s', compileStmt (.If 1 (.Boolean 1 true)
        (.cons (.Print 1 (.Boolean 1 true)) .nil) .nil) initCompiler = .ok s' ∧
      ∃ j k,
        (get_current_memory s').code[j]? = some (.op .OP_BRANCH_FALSE) ∧
        (get_current_memory s').code[j + 1]? = some (.idx k) ∧
        (get_current_memory s').constants[k]? =
          some (.vint (((get_current_memory s').code.length : Int) - ((j : Int) + 2))) :=
  ⟨_, rfl, C4_if_backpatch 1 (.Boolean 1 true)
    (.cons (.Print 1 (.Boolean 1 true)) .nil) initCompiler _ rfl⟩

/-- Claim C5: compiling an if statement whose else branch is non-empty
emits nothing at all: compilation succeeds and the returned state carries
exactly the entry program container (all three regions' code, constants and
lines streams unchanged) and the entry region selector; only the current
source line is updated, as it is for every statement. -/
theorem C5_if_else_emits_nothing (line : Nat) (c : Expr) (tb : StmtList)
    (e0 : Stmt) (rest : StmtList) (s : CompilerS) :
    ∃ s', compileStmt (.If line c tb (.cons e0 rest)) s = .ok s' ∧
      s'.program = s.program ∧ s'.current_memory = s.current_memory :=
  ⟨{ s with current_line := line }, rfl, rfl, rfl⟩

/-- Claim C6: for every function literal that compiles, the emission into
the functions region (argument declarations, parameter bindings, body)
ends with the unconditional trailer `PUSH`, an operand slot holding the
pool index of a none constant, and `RETURN`, regardless of what the body
contained. -/
theorem C6_function_trailer (line : Nat) (arguments : StmtList) (rt : String)
    (body : StmtList) (s s' : CompilerS)
    (h : compileExpr (.Function line arguments rt body) s = .ok s') :
    ∃ s1 t k,
      compileFunctionInner arguments body
        { s with current_line := line, current_memory := .FUNCTIONS_MEMORY } = .ok s1 ∧
      s1.program.functions.code = t ++ [.op .OP_PUSH, .idx k, .op .OP_RETURN] ∧
      s1.program.functions.constants[k]? = some .vnone := by
  rw [compileExpr_function_eq] at h
  split at h
  next err heqI => exact Except.noConfusion h
  next s1 heqI =>
    obtain ⟨_, t, k, h1, h2⟩ := inner_shape arguments body _ s1 rfl heqI
    exact ⟨s1, t, k, heqI, h1, h2⟩

/-- Claim C6 witness: the theorem applied to the literal `fn() -> int {}`
from a fresh compiler. -/
theorem C6_witness :
    ∃ s', compileExpr (.Function 1 .nil "int" .nil) initCompiler = .ok s' ∧
      ∃ s1 t k,
        compileFunctionInner .nil .nil
          { initCompiler with
            current_line := 1
            current_memory := .FUNCTIONS_MEMORY } = .ok s1 ∧
        s1.program.functions.code = t ++ [.op .OP_PUSH, .idx k, .op .OP_RETURN] ∧
        s1.program.functions.constants[k]? = some .vnone :=
  ⟨_, rfl, C6_function_trailer 1 .nil "int" .nil initCompiler _ rfl⟩

/-- Claim C7: compiling a function literal restores the saved active-region
selector (the selector after the literal equals its value before), and the
`FUNCTION` opcode with its two operand slots — the start address of the body
in the functions region and the declared return type — is appended to the
region that was active at the literal's position. -/
theorem C7_function_region_restore (line : Nat) (arguments : StmtList) (rt : String)
    (body : StmtList) (s s' : CompilerS)
    (h : compileExpr (.Function line arguments rt body) s = .ok s') :
    s'.current_memory = s.current_memory ∧
    ∃ s1 i,
      compileFunctionInner arguments body
        { s with current_line := line, current_memory := .FUNCTIONS_MEMORY } = .ok s1 ∧
      (get_current_memory s').code =
        (getMemOf s1.program s.current_memory).code ++
          [.op .OP_FUNCTION, .idx i, .idx (i + 1)] ∧
      (get_current_memory s').constants[i]? =
        some (.vint (s.program.functions.code.length : Int)) ∧
      (get_current_memory s').constants[i + 1]? = some (.vtype rt) := by
  rw [compileExpr_function_eq] at h
  split at h
  next err heqI => exact Except.noConfusion h
  next s1 heqI =>
    injection h with h
    subst h
    refine ⟨rfl, s1, (getMemOf s1.program s.current_memory).constants.length,
      heqI, ?_, ?_, ?_⟩
    all_goals {
      rw [get_add_constant_only, get_add_constant_only, get_add_opcode]
      have hR : get_current_memory { s1 with current_memory := s.current_memory } =
          getMemOf s1.program s.current_memory := rfl
      rw [hR]
      have hL : current_code_line
          { s with current_line := line, current_memory := .FUNCTIONS_MEMORY } =
          s.program.functions.code.length := rfl
      simp [hL, getElem?_append_pair_left, getElem?_append_pair_right,
        getElem_append_pair_left, getElem_append_pair_right]
    }

/-- Claim C7 witness: the theorem applied to the literal `fn() -> int {}`
from a fresh compiler. -/
theorem C7_witness :
    ∃ s', compileExpr (.Function 1 .nil "int" .nil) initCompiler = .ok s' ∧
      s'.current_memory = initCompiler.current_memory ∧
      ∃ s1 i,
        compileFunctionInner .nil .nil
          { initCompiler with
            current_line := 1
            current_memory := .FUNCTIONS_MEMORY } = .ok s1 ∧
        (get_current_memory s').code =
          (getMemOf s1.program initCompiler.current_memory).code ++
            [.op .OP_FUNCTION, .idx i, .idx (i + 1)] ∧
        (get_current_memory s').constants[i]? =
          some (.vint (initCompiler.program.functions.code.length : Int)) ∧
        (get_current_memory s').constants[i + 1]? =
          some (.vtype "int") :=
  ⟨_, rfl, C7_function_region_restore 1 .nil "int" .nil initCompiler _ rfl⟩

/-- Claim C8: (1) the element loop of a list expression emits the elements
in reverse order — it is extensionally the forward emission of the reversed
element list; (2) after the elements, `LIST` is emitted followed by the
element count appended to the pool as a float (double) constant; (3) the
`RJUMP` operand of a while statement, by contrast, is stored as an int64
constant. -/
theorem C8_list_reverse_and_count_float :
    (∀ (l : ExprList) (s : CompilerS),
        compileExprListRev l s = compileExprList l.reverse s) ∧
    (∀ (line : Nat) (v : ExprList) (s s' : CompilerS),
        compileExpr (.ListExpr line v) s = .ok s' →
        ∃ t k, (get_current_memory s').code = t ++ [.op .OP_LIST, .idx k] ∧
          (get_current_memory s').constants[k]? = some (.vfloat (v.size : Rat))) ∧
    (∀ (line : Nat) (c : Expr) (body : StmtList) (s s' : CompilerS),
        compileStmt (.While line c body) s = .ok s' →
        ∃ t k z, (get_current_memory s').code = t ++ [.op .OP_RJUMP, .idx k] ∧
          (get_current_memory s').constants[k]? = some (.vint z)) := by
  refine ⟨compileExprListRev_eq, ?_, ?_⟩
  · intro line v s s' h
    simp only [compileExpr] at h
    split at h
    next err heq => exact Except.noConfusion h
    next s1 heq =>
      injection h with h
      subst h
      rw [get_add_constant_only, get_add_opcode]
      refine ⟨(get_current_memory s1).code,
        (get_current_memory s1).constants.length, ?_, ?_⟩
      · simp
      · simp [List.getElem?_concat_length]
  · intro line c body s s' h
    obtain ⟨_, t, k, h1, _, h3, _⟩ := while_shape line c body s s' h
    exact ⟨t, k, _, h1, h3⟩

/-- Claim C8 witness: the float-count conjunct applied to the two-element
list `[7, 8]` and the int-offset conjunct applied to `while true:`, both
from a fresh compiler. -/
theorem C8_witness :
    (∃ s', compileExpr (.ListExpr 1 (.cons (.Integer 1 7)
        (.cons (.Integer 1 8) .nil))) initCompiler = .ok s' ∧
      ∃ t k, (get_current_memory s').code = t ++ [.op .OP_LIST, .idx k] ∧
        (get_current_memory s').constants[k]? =
          some (.vfloat ((ExprList.cons (.Integer 1 7)
            (.cons (.Integer 1 8) .nil)).size : Rat))) ∧
    (∃ s', compileStmt (.While 1 (.Boolean 1 true) .nil) initCompiler = .ok s' ∧
      ∃ t k z, (get_current_memory s').code = t ++ [.op .OP_RJUMP, .idx k] ∧
        (get_current_memory s').constants[k]? = some (.vint z)) :=
  ⟨⟨_, rfl, C8_list_reverse_and_count_float.2.1 1
      (.cons (.Integer 1 7) (.cons (.Integer 1 8) .nil)) initCompiler _ rfl⟩,
    ⟨_, rfl, C8_list_reverse_and_count_float.2.2 1
      (.Boolean 1 true) .nil initCompiler _ rfl⟩⟩

/-- Claim C9: statement or expression emission succeeds exactly when the
walk reaches none of the three fatal conditions — a bare
`RULE_STATEMENT`/`RULE_EXPRESSION` placeholder, a rule kind outside the
recognized set, or (for operator emission) a token outside the recognized
set of twelve; in every other case emission completes without aborting. -/
theorem C9_fatal_conditions :
    (∀ (r : Stmt) (s : CompilerS),
        (∃ s', compileStmt r s = .ok s') ↔ stmtHasFatal r = false) ∧
    (∀ (e : Expr) (s : CompilerS),
        (∃ s', compileExpr e s = .ok s') ↔ exprHasFatal e = false) ∧
    (∀ (op : Token) (u : Bool) (s : CompilerS),
        (∃ s', compile_token op u s = .ok s') ↔ tokenRecognized op.type = true) :=
  ⟨fun r s => ⟨fun ⟨s', h⟩ => fatStmt r s s' h, errStmt r s⟩,
    fun e s => ⟨fun ⟨s', h⟩ => fatExpr e s s' h, errExpr e s⟩,
    fun op u s => ⟨fun ⟨s', h⟩ => tok_of_ok op u s s' h, tok_ok op u s⟩⟩

/-- Claim C10, counterexample to the claim as stated: calling
`modify_constant` with pool index 5 on a fresh compiler (whose active
region's pool is empty, so the index is out of range) does not abort
compilation — the source performs `constants[index] = value` with no bounds
assertion of any kind, so the call returns normally; in the embedding the
out-of-range `List.set` leaves the state entirely unchanged (in the C++
source this call site is an unchecked out-of-bounds vector write, i.e.
undefined behavior, not a fatal assertion). -/
theorem C10_counterexample :
    (get_current_memory initCompiler).constants.length ≤ 5 ∧
    modify_constant 5 (.vint 7) initCompiler = initCompiler := by
  decide

/-- Claim C10, amended: `modify_constant` performs an unchecked in-place
write with no bounds assertion; with an index at or beyond the pool length
it aborts nothing and (in the embedding) changes nothing — compilation
simply continues with the constants pool unchanged. -/
theorem C10_modify_unchecked (i : Nat) (v : Value) (s : CompilerS)
    (h : (get_current_memory s).constants.length ≤ i) :
    modify_constant i v s = s := by
  have h2 : (get_current_memory s).constants.set i v =
      (get_current_memory s).constants := List.set_eq_of_length_le h
  show set_current_memory s
    { get_current_memory s with
      constants := (get_current_memory s).constants.set i v } = s
  rw [h2]
  exact set_get_current_memory s

/-- Claim C10 witness: the amended theorem applied to index 5 on a fresh
compiler. -/
theorem C10_witness : modify_constant 5 (.vint 7) initCompiler = initCompiler :=
  C10_modify_unchecked 5 (.vint 7) initCompiler (by decide)

end Nuua
